import Mathlib

/-!
Verification development for the options-arbitrage repository.

The embedding models:
* `D` — exact base-10-free rational values, standing for `rust_decimal::Decimal`
  values (exact arbitrary-precision decimal arithmetic).  A value is an
  unreduced fraction `num / den` with a positive denominator; all operations
  are exact, mirroring the exact decimal arithmetic of the source.  The
  idealization (documented in the spec, §4.3.7) is that converting a *finite*
  float to decimal always succeeds and is exact; conversion fails exactly on
  non-finite values.
* `F` — the IEEE-754 double values stored in the order books: a finite value
  (carried as an exact rational), `nan`, `inf` or `neginf`.  Comparison,
  subtraction, `min` and `partial_cmp` follow IEEE semantics as used by Rust
  `f64`; the key order `keyLtB`/`keyEqB` follows `ordered_float::OrderedFloat`
  (total order with NaN greatest, NaN equal to itself).
* `OrderBook` — `BTreeMap` sides become association lists strictly sorted by
  the `OrderedFloat` key order.
* the matching walk of `ArbitrageDetector::check_direction`, written with a
  structural fuel argument (the wrapper supplies fuel that can never run out
  because every iteration consumes at least one book level); the `unwrap` on
  `partial_cmp` is modelled by the distinguished outcome `PanicOr.panic`.
-/

namespace Arb

/-- Exact rational value: model of `rust_decimal::Decimal` (exact decimal
arithmetic). Stored as an unreduced fraction with positive denominator. -/
structure D where
  num : ℤ
  den : ℕ+
deriving DecidableEq

/-- Decimal zero (`Decimal::ZERO`). -/
def D.zero : D := ⟨0, 1⟩

/-- Exact addition of decimals. -/
def D.add (x y : D) : D := ⟨x.num * (y.den : ℤ) + y.num * (x.den : ℤ), x.den * y.den⟩

/-- Exact subtraction of decimals. -/
def D.sub (x y : D) : D := ⟨x.num * (y.den : ℤ) - y.num * (x.den : ℤ), x.den * y.den⟩

/-- Exact multiplication of decimals. -/
def D.mul (x y : D) : D := ⟨x.num * y.num, x.den * y.den⟩

/-- Value-level strict order on decimals (`<` on `Decimal`). -/
def D.ltB (x y : D) : Bool := decide (x.num * ((y.den : ℕ) : ℤ) < y.num * ((x.den : ℕ) : ℤ))

/-- Value-level order on decimals (`<=` on `Decimal`). -/
def D.leB (x y : D) : Bool := decide (x.num * ((y.den : ℕ) : ℤ) ≤ y.num * ((x.den : ℕ) : ℤ))

/-- Value equality of decimals (two fractions denote the same number). -/
def D.veq (x y : D) : Bool := decide (x.num * ((y.den : ℕ) : ℤ) = y.num * ((x.den : ℕ) : ℤ))

/-- Model of an `f64` as stored in the order books: a finite value carried as
an exact rational, or one of the non-finite values. -/
inductive F where
  | fin (d : D)
  | nan
  | inf
  | neginf
deriving DecidableEq

/-- IEEE `<=` on doubles (`f64::le`): any comparison with NaN is false. -/
def F.leB : F → F → Bool
  | .nan, _ => false
  | _, .nan => false
  | .neginf, _ => true
  | _, .inf => true
  | .inf, _ => false
  | _, .neginf => false
  | .fin a, .fin b => D.leB a b

/-- IEEE `<` on doubles (`f64::lt`): any comparison with NaN is false. -/
def F.ltB : F → F → Bool
  | .nan, _ => false
  | _, .nan => false
  | .inf, _ => false
  | _, .inf => true
  | _, .neginf => false
  | .neginf, _ => true
  | .fin a, .fin b => D.ltB a b

/-- IEEE equality with zero (`quantity == 0.0`): true only for a finite zero
value; NaN compares unequal to everything. -/
def F.eqZeroB : F → Bool
  | .fin d => D.veq d D.zero
  | _ => false

/-- Rust `f64::min`: if one operand is NaN the other is returned; on a tie the
second operand is returned. -/
def F.fminF : F → F → F
  | .nan, b => b
  | a, .nan => a
  | a, b => if F.ltB a b then a else b

/-- IEEE subtraction restricted to the shapes the walk needs:
`inf - inf` and `(-inf) - (-inf)` are NaN, any NaN operand gives NaN. -/
def F.sub : F → F → F
  | .nan, _ => .nan
  | _, .nan => .nan
  | .inf, .inf => .nan
  | .inf, _ => .inf
  | .neginf, .neginf => .nan
  | .neginf, _ => .neginf
  | _, .inf => .neginf
  | _, .neginf => .inf
  | .fin a, .fin b => .fin (D.sub a b)

/-- Rust `PartialOrd::partial_cmp` on doubles: `none` iff an operand is NaN. -/
def F.partialCmp : F → F → Option Ordering
  | .nan, _ => none
  | _, .nan => none
  | .inf, .inf => some .eq
  | .inf, _ => some .gt
  | _, .inf => some .lt
  | .neginf, .neginf => some .eq
  | .neginf, _ => some .lt
  | _, .neginf => some .gt
  | .fin a, .fin b =>
      some (if D.ltB a b then .lt else if D.ltB b a then .gt else .eq)

/-- Conversion `Decimal::try_from(f64)`: fails exactly on non-finite values,
exact on finite values (spec §4.3: a conversion failure is a non-finite
value). -/
def F.toDecimal : F → Option D
  | .fin d => some d
  | _ => none

/-- Strict key order of `ordered_float::OrderedFloat` (the `BTreeMap` key
order): totally ordered with `-inf < finite < inf < NaN`. -/
def F.keyLtB : F → F → Bool
  | _, .neginf => false
  | .neginf, _ => true
  | .nan, _ => false
  | _, .nan => true
  | .inf, _ => false
  | _, .inf => true
  | .fin a, .fin b => D.ltB a b

/-- Key equality of `ordered_float::OrderedFloat`: NaN equals NaN, finite
values compare by value. -/
def F.keyEqB : F → F → Bool
  | .fin a, .fin b => D.veq a b
  | .nan, .nan => true
  | .inf, .inf => true
  | .neginf, .neginf => true
  | _, _ => false

/-- The two venues (`Exchange` in `orderbook.rs`). -/
inductive Exchange where
  | okex
  | deribit
deriving DecidableEq

/-- One price level of a book update (`OrderLevel`). -/
structure OrderLevel where
  price : F
  quantity : F
deriving DecidableEq

/-- Order book for one venue (`OrderBook`): each side is the association list
of a `BTreeMap<OrderedFloat<f64>, f64>`, strictly sorted ascending by
`F.keyLtB`. -/
structure OrderBook where
  bids : List (F × F)
  asks : List (F × F)
  symbol : String
  exchange : Exchange
deriving DecidableEq

/-- Model of `BTreeMap::insert`: overwrite the value at an existing key
(keeping the stored key, as `BTreeMap` does) or insert at the sorted
position. -/
def insertSorted (p q : F) : List (F × F) → List (F × F)
  | [] => [(p, q)]
  | (p', q') :: rest =>
      if F.keyLtB p p' then (p, q) :: (p', q') :: rest
      else if F.keyEqB p p' then (p', q) :: rest
      else (p', q') :: insertSorted p q rest

/-- Model of `BTreeMap::remove`: drop the entry whose key equals `p`. -/
def removeKey (p : F) : List (F × F) → List (F × F)
  | [] => []
  | (p', q') :: rest => if F.keyEqB p p' then rest else (p', q') :: removeKey p rest

/-- Model of `BTreeMap::get`: the stored quantity at key `p`, if present. -/
def lookupKey (p : F) : List (F × F) → Option F
  | [] => none
  | (p', q') :: rest => if F.keyEqB p p' then some q' else lookupKey p rest

/-- One iteration of the loops in `update_bids`/`update_asks`: a level with
quantity `== 0.0` removes the price key, any other quantity is inserted. -/
def applyLevel (m : List (F × F)) (l : OrderLevel) : List (F × F) :=
  if l.quantity.eqZeroB then removeKey l.price m else insertSorted l.price l.quantity m

/-- `OrderBook::new`. -/
def OrderBook.new (symbol : String) (exchange : Exchange) : OrderBook :=
  ⟨[], [], symbol, exchange⟩

/-- `OrderBook::update_bids`. -/
def OrderBook.update_bids (b : OrderBook) (levels : List OrderLevel) : OrderBook :=
  { b with bids := levels.foldl applyLevel b.bids }

/-- `OrderBook::update_asks`. -/
def OrderBook.update_asks (b : OrderBook) (levels : List OrderLevel) : OrderBook :=
  { b with asks := levels.foldl applyLevel b.asks }

/-- `OrderBook::best_bid`: the maximal bid key, i.e. the last entry of the
ascending list. -/
def OrderBook.best_bid (b : OrderBook) : Option OrderLevel :=
  b.bids.getLast?.map fun pq => ⟨pq.1, pq.2⟩

/-- `OrderBook::best_ask`: the minimal ask key, i.e. the first entry of the
ascending list. -/
def OrderBook.best_ask (b : OrderBook) : Option OrderLevel :=
  b.asks.head?.map fun pq => ⟨pq.1, pq.2⟩

/-- One matched slice (`TradeLevel`), all fields exact decimals. -/
structure TradeLevel where
  buy_price : D
  sell_price : D
  quantity : D
  profit : D
deriving DecidableEq

/-- A detected opportunity (`ArbitrageOpportunity`). -/
structure ArbitrageOpportunity where
  buy_exchange : Exchange
  sell_exchange : Exchange
  symbol : String
  trades : List TradeLevel
  total_profit : D
  total_volume : D
deriving DecidableEq

/-- Outcome of running code that can `panic!` (the `unwrap()` in the
quantity-tie comparison): either a panic or a normal value. -/
inductive PanicOr (α : Type) where
  | panic
  | ok (val : α)
deriving DecidableEq

/-- The matching walk of `check_direction` (`orderbook.rs` lines 202-255).
Arguments: fuel, remaining sell levels (bids, highest price first, head =
`current_sell`), remaining buy levels (asks, lowest price first, head =
`current_buy`), accumulated trades / total profit / total volume, and the two
carried remainders.  Results: `.panic` for the `unwrap` panic on an
incomparable quantity tie, `.ok none` for a decimal-conversion failure
(aborting the whole call), `.ok (some _)` for normal loop exit.  Every
iteration consumes at least one level, so fuel `sells.length + buys.length`
never runs out; the fuel-exhausted case returns like the loop's normal
exhaustion exit and is unreachable from the wrapper `matchWalk`. -/
def matchWalkF : ℕ → List (F × F) → List (F × F) →
    List TradeLevel → D → D → F → F → PanicOr (Option (List TradeLevel × D × D))
  | _, [], _, trades, tp, tv, _, _ => .ok (some (trades, tp, tv))
  | _, _ :: _, [], trades, tp, tv, _, _ => .ok (some (trades, tp, tv))
  | 0, _ :: _, _ :: _, trades, tp, tv, _, _ => .ok (some (trades, tp, tv))
  | fuel + 1, (sp, sq) :: sellRest, (bp, bq) :: buyRest, trades, tp, tv, rs, rb =>
      if F.leB sp bp then .ok (some (trades, tp, tv))
      else
        let aS := if F.ltB (F.fin D.zero) rs then rs else sq
        let aB := if F.ltB (F.fin D.zero) rb then rb else bq
        match F.toDecimal sp with
        | none => .ok none
        | some spd =>
          match F.toDecimal bp with
          | none => .ok none
          | some bpd =>
            match F.toDecimal (F.fminF aS aB) with
            | none => .ok none
            | some tqd =>
              let profit := D.mul tqd (D.sub spd bpd)
              let trades' := trades ++ [⟨bpd, spd, tqd, profit⟩]
              match F.partialCmp aS aB with
              | none => .panic
              | some .lt =>
                  matchWalkF fuel sellRest ((bp, bq) :: buyRest) trades'
                    (D.add tp profit) (D.add tv tqd) (F.fin D.zero) (F.sub aB aS)
              | some .gt =>
                  matchWalkF fuel ((sp, sq) :: sellRest) buyRest trades'
                    (D.add tp profit) (D.add tv tqd) (F.sub aS aB) (F.fin D.zero)
              | some .eq =>
                  matchWalkF fuel sellRest buyRest trades'
                    (D.add tp profit) (D.add tv tqd) (F.fin D.zero) (F.fin D.zero)

/-- The matching walk started as `check_direction` starts it (fresh iterators,
empty accumulators, zero remainders), with sufficient fuel. -/
def matchWalk (sells buys : List (F × F)) : PanicOr (Option (List TradeLevel × D × D)) :=
  matchWalkF (sells.length + buys.length) sells buys [] D.zero D.zero
    (F.fin D.zero) (F.fin D.zero)

/-- `ArbitrageDetector::check_direction`. -/
def check_direction (sell_book buy_book : OrderBook) (buy_exchange sell_exchange : Exchange) :
    PanicOr (Option ArbitrageOpportunity) :=
  match sell_book.best_bid, buy_book.best_ask with
  | some best_bid, some best_ask =>
      if F.leB best_bid.price best_ask.price then .ok none
      else
        match matchWalk sell_book.bids.reverse buy_book.asks with
        | .panic => .panic
        | .ok none => .ok none
        | .ok (some (trades, total_profit, total_volume)) =>
            if D.ltB D.zero total_profit then
              .ok (some ⟨buy_exchange, sell_exchange, sell_book.symbol,
                    trades, total_profit, total_volume⟩)
            else .ok none
  | _, _ => .ok none

/-- `ArbitrageDetector::detect_arbitrage`: try buy-on-B/sell-on-A first, then
the reverse; a panic in the first direction aborts before the second runs. -/
def detect_arbitrage (book_a book_b : OrderBook) : PanicOr (Option ArbitrageOpportunity) :=
  match check_direction book_a book_b book_b.exchange book_a.exchange with
  | .panic => .panic
  | .ok (some opportunity) => .ok (some opportunity)
  | .ok none =>
      match check_direction book_b book_a book_a.exchange book_b.exchange with
      | .panic => .panic
      | .ok r => .ok r

/-!
Reconnect backoff of the venue connector tasks.  `okex_websocket_task` and
`deribit_websocket_task` (`exchanges.rs`) contain the identical backoff code
`attempt += 1; base = (attempt.min(5)) * 5; jitter = random::<u64>() % 5;
backoff = base + jitter`; the random draw is modelled by an arbitrary natural
seed reduced modulo 5.
-/

/-- Base term of the reconnect delay: `(attempt.min(5)) * 5` seconds. -/
def backoff_base (attempt : ℕ) : ℕ := min attempt 5 * 5

/-- Reconnect delay in seconds for a given attempt-counter value and random
seed: base plus jitter `seed % 5`. -/
def reconnect_backoff (attempt seed : ℕ) : ℕ := backoff_base attempt + seed % 5

/-- Attempt counter right after the `connect_async` match: reset to zero on
success (`Ok` branch starts with `attempt = 0`), unchanged on failure. -/
def attempt_after_connect (attempt : ℕ) (connected : Bool) : ℕ :=
  if connected then 0 else attempt

/-- How one iteration of a connector's outer loop terminates. -/
inductive ConnectOutcome where
  | connectFailed
  | subscribeSendFailed
  | sessionEnded
deriving DecidableEq

/-- One iteration of the reconnect loop of either websocket task: returns the
attempt counter carried into the next iteration and the backoff delay slept
before it (`none` when the iteration restarts immediately, as the
subscribe-send-failure `continue` does, skipping the `attempt += 1` and the
sleep at the bottom of the loop). -/
def reconnect_loop_step (attempt : ℕ) (outcome : ConnectOutcome) (seed : ℕ) : ℕ × Option ℕ :=
  match outcome with
  | .connectFailed =>
      let a := attempt_after_connect attempt false + 1
      (a, some (reconnect_backoff a seed))
  | .subscribeSendFailed => (attempt_after_connect attempt true, none)
  | .sessionEnded =>
      let a := attempt_after_connect attempt true + 1
      (a, some (reconnect_backoff a seed))

/-!
Instrument-symbol parsing (`parsing_utils.rs`).  Strings are modelled as
`List Char`; Rust's byte-indexed slicing coincides with character indexing on
the ASCII symbols this component is specified for.  Error-message payloads are
carried as character lists; the exact interpolated text of `format!` messages
is abbreviated to the fixed prefix (no claim depends on message text).
-/

/-- Mirror of `chrono::NaiveDate` restricted to what the parser builds: a
calendar date, with `from_ymd_opt` validity enforced at construction. -/
structure NaiveDate where
  year : ℤ
  month : ℕ
  day : ℕ
deriving DecidableEq

/-- Gregorian leap-year rule (as used by `chrono` date validity). -/
def isLeapYear (y : ℤ) : Bool := y % 4 = 0 && (y % 100 ≠ 0 || y % 400 = 0)

/-- Number of days of a month, with the leap-year rule for February. -/
def daysInMonth (y : ℤ) (m : ℕ) : ℕ :=
  if m = 2 then (if isLeapYear y then 29 else 28)
  else if m = 4 ∨ m = 6 ∨ m = 9 ∨ m = 11 then 30
  else 31

/-- Model of `NaiveDate::from_ymd_opt`: `some` exactly on a valid calendar
date. -/
def from_ymd_opt (y : ℤ) (m d : ℕ) : Option NaiveDate :=
  if 1 ≤ m ∧ m ≤ 12 ∧ 1 ≤ d ∧ d ≤ daysInMonth y m then some ⟨y, m, d⟩ else none

/-- Option kind (`OptionType`). -/
inductive OptionType where
  | call
  | put
deriving DecidableEq

/-- Parsed instrument identity (`ParsedInstrument`). -/
structure ParsedInstrument where
  underlying : List Char
  expiry_date : NaiveDate
  strike : ℕ
  option_type : OptionType
deriving DecidableEq

/-- Structured parse failure (`InstrumentParseError`); message payloads are
character lists. -/
inductive InstrumentParseError where
  | invalidFormat (msg : List Char)
  | dateParseError (msg : List Char)
  | invalidStrike (s : List Char)
  | invalidOptionType (s : List Char)
  | insufficientComponents
deriving DecidableEq

/-- Rust `str::split('-')`: split at every dash, keeping empty components. -/
def splitDash : List Char → List (List Char)
  | [] => [[]]
  | c :: cs =>
      if c = '-' then [] :: splitDash cs
      else
        match splitDash cs with
        | [] => [[c]]
        | part :: parts => (c :: part) :: parts

/-- Numeric value of a decimal digit character, `none` on a non-digit. -/
def digitVal (c : Char) : Option ℕ :=
  if '0' ≤ c ∧ c ≤ '9' then some (c.toNat - 48) else none

/-- Value of a non-empty all-digit character sequence. -/
def parseNatDigits (cs : List Char) : Option ℕ :=
  match cs with
  | [] => none
  | _ => cs.foldl (fun acc c => acc.bind fun n => (digitVal c).map fun d => n * 10 + d) (some 0)

/-- Rust `str::parse::<u32>()`: an optional leading `+`, then one or more
digits, value within `u32` range. -/
def rustParseU32 (cs : List Char) : Option ℕ :=
  let body := match cs with
    | '+' :: rest => rest
    | _ => cs
  match parseNatDigits body with
  | some n => if n < 4294967296 then some n else none
  | none => none

/-- Rust `str::parse::<i32>()`: an optional sign, then one or more digits,
value within `i32` range. -/
def rustParseI32 (cs : List Char) : Option ℤ :=
  match cs with
  | '-' :: rest =>
      match parseNatDigits rest with
      | some n => if n ≤ 2147483648 then some (-(n : ℤ)) else none
      | none => none
  | '+' :: rest =>
      match parseNatDigits rest with
      | some n => if n ≤ 2147483647 then some (n : ℤ) else none
      | none => none
  | _ =>
      match parseNatDigits cs with
      | some n => if n ≤ 2147483647 then some (n : ℤ) else none
      | none => none

/-- `InstrumentValidator::parse_okex_date`: a 6-character `YYMMDD` date,
two-digit year mapped into `20XX`. -/
def parse_okex_date (date_str : List Char) : Except InstrumentParseError NaiveDate :=
  if date_str.length ≠ 6 then
    .error (.invalidFormat ("Expected 6-digit date, got: ".toList ++ date_str))
  else
    let year_str := date_str.take 2
    let month_str := (date_str.drop 2).take 2
    let day_str := date_str.drop 4
    match rustParseI32 year_str with
    | none => .error (.invalidFormat ("Invalid year: ".toList ++ year_str))
    | some year =>
      match rustParseU32 month_str with
      | none => .error (.invalidFormat ("Invalid month: ".toList ++ month_str))
      | some month =>
        match rustParseU32 day_str with
        | none => .error (.invalidFormat ("Invalid day: ".toList ++ day_str))
        | some day =>
          if 0 ≤ year ∧ year ≤ 99 then
            match from_ymd_opt (2000 + year) month day with
            | some d => .ok d
            | none => .error (.invalidFormat ("Invalid date: ".toList))
          else .error (.invalidFormat ("Invalid year: ".toList))

/-- Month-name table of `parse_deribit_date`. -/
def monthNum (cs : List Char) : Option ℕ :=
  match cs.map Char.toUpper with
  | ['J', 'A', 'N'] => some 1
  | ['F', 'E', 'B'] => some 2
  | ['M', 'A', 'R'] => some 3
  | ['A', 'P', 'R'] => some 4
  | ['M', 'A', 'Y'] => some 5
  | ['J', 'U', 'N'] => some 6
  | ['J', 'U', 'L'] => some 7
  | ['A', 'U', 'G'] => some 8
  | ['S', 'E', 'P'] => some 9
  | ['O', 'C', 'T'] => some 10
  | ['N', 'O', 'V'] => some 11
  | ['D', 'E', 'C'] => some 12
  | _ => none

/-- `InstrumentValidator::parse_deribit_date`: a `DDMMMYY` date of at least 7
characters (characters beyond the seventh are ignored, as the source's
byte-range slicing does), two-digit year mapped into `20XX`. -/
def parse_deribit_date (date_str : List Char) : Except InstrumentParseError NaiveDate :=
  if date_str.length < 7 then
    .error (.invalidFormat ("Expected format DDMMMYY, got: ".toList ++ date_str))
  else
    let day_str := date_str.take 2
    let month_str := (date_str.drop 2).take 3
    let year_str := (date_str.drop 5).take 2
    match rustParseU32 day_str with
    | none => .error (.invalidFormat ("Invalid day: ".toList ++ day_str))
    | some day =>
      match rustParseI32 year_str with
      | none => .error (.invalidFormat ("Invalid year: ".toList ++ year_str))
      | some year =>
        match monthNum month_str with
        | none => .error (.invalidFormat ("Invalid month: ".toList ++ month_str))
        | some month =>
          if 0 ≤ year ∧ year ≤ 99 then
            match from_ymd_opt (2000 + year) month day with
            | some d => .ok d
            | none => .error (.invalidFormat ("Invalid date: ".toList))
          else .error (.invalidFormat ("Invalid year: ".toList))

/-- `InstrumentValidator::parse_okex_symbol`: `BASE-QUOTE-YYMMDD-STRIKE-C|P`
(at least 5 dash-separated components; extra components are ignored). -/
def parse_okex_symbol (symbol : List Char) : Except InstrumentParseError ParsedInstrument :=
  let parts := splitDash symbol
  if parts.length < 5 then .error .insufficientComponents
  else
    let base := parts.getD 0 []
    let date_str := parts.getD 2 []
    let strike_str := parts.getD 3 []
    let option_type_str := parts.getD 4 []
    let underlying := base.map Char.toUpper
    match parse_okex_date date_str with
    | .error e => .error e
    | .ok expiry_date =>
      match rustParseU32 strike_str with
      | none => .error (.invalidStrike strike_str)
      | some strike =>
        match option_type_str.map Char.toUpper with
        | ['C'] => .ok ⟨underlying, expiry_date, strike, .call⟩
        | ['P'] => .ok ⟨underlying, expiry_date, strike, .put⟩
        | _ => .error (.invalidOptionType option_type_str)

/-- `InstrumentValidator::parse_deribit_symbol`: `BASE-DDMMMYY-STRIKE-C|P`
(at least 4 dash-separated components; extra components are ignored). -/
def parse_deribit_symbol (symbol : List Char) : Except InstrumentParseError ParsedInstrument :=
  let parts := splitDash symbol
  if parts.length < 4 then .error .insufficientComponents
  else
    let base := parts.getD 0 []
    let date_str := parts.getD 1 []
    let strike_str := parts.getD 2 []
    let option_type_str := parts.getD 3 []
    let underlying := base.map Char.toUpper
    match parse_deribit_date date_str with
    | .error e => .error e
    | .ok expiry_date =>
      match rustParseU32 strike_str with
      | none => .error (.invalidStrike strike_str)
      | some strike =>
        match option_type_str.map Char.toUpper with
        | ['C'] => .ok ⟨underlying, expiry_date, strike, .call⟩
        | ['P'] => .ok ⟨underlying, expiry_date, strike, .put⟩
        | _ => .error (.invalidOptionType option_type_str)

/-- `InstrumentValidator::are_same_instrument`: parse both symbols (Okex
first) and compare the parsed instruments for equality. -/
def are_same_instrument (okex_symbol deribit_symbol : List Char) :
    Except InstrumentParseError Bool :=
  match parse_okex_symbol okex_symbol with
  | .error e => .error e
  | .ok okex_parsed =>
    match parse_deribit_symbol deribit_symbol with
    | .error e => .error e
    | .ok deribit_parsed => .ok (decide (okex_parsed = deribit_parsed))

/-!
Definitions used only to state claims (sums of leg fields, update sequences,
the no-crossing condition) — these follow the spec's vocabulary.
-/

/-- Sum of the `profit` fields of a leg list, accumulated exactly as
`check_direction` accumulates `total_profit` (left to right from zero). -/
def sumProfit (trades : List TradeLevel) : D :=
  (trades.map TradeLevel.profit).foldl D.add D.zero

/-- Sum of the `quantity` fields of a leg list, accumulated exactly as
`check_direction` accumulates `total_volume`. -/
def sumVolume (trades : List TradeLevel) : D :=
  (trades.map TradeLevel.quantity).foldl D.add D.zero

/-- No crossing in one direction: the best bid of the sell book does not
exceed the best ask of the buy book, or either best level is missing. -/
def noCrossB (sell_book buy_book : OrderBook) : Bool :=
  match sell_book.best_bid, buy_book.best_ask with
  | some best_bid, some best_ask => F.leB best_bid.price best_ask.price
  | _, _ => true

/-- One update operation of a book-update sequence. -/
inductive BookOp where
  | bids (levels : List OrderLevel)
  | asks (levels : List OrderLevel)

/-- Apply one update operation to a book. -/
def applyOp (b : OrderBook) : BookOp → OrderBook
  | .bids ls => b.update_bids ls
  | .asks ls => b.update_asks ls

/-- Apply a sequence of update operations, first element first. -/
def applyOps (b : OrderBook) (ops : List BookOp) : OrderBook :=
  ops.foldl applyOp b

/-- Quantity of the most recent level for price `p` within one level list,
starting from an earlier value `acc` (later levels win). -/
def lastQtyLevels (p : F) (acc : Option F) (levels : List OrderLevel) : Option F :=
  levels.foldl (fun a l => if F.keyEqB l.price p then some l.quantity else a) acc

/-- Quantity of the most recent bid-side level for price `p` across an update
sequence. -/
def lastQtyBids (p : F) (ops : List BookOp) : Option F :=
  ops.foldl (fun a op => match op with
    | .bids ls => lastQtyLevels p a ls
    | .asks _ => a) none

/-- Quantity of the most recent ask-side level for price `p` across an update
sequence. -/
def lastQtyAsks (p : F) (ops : List BookOp) : Option F :=
  ops.foldl (fun a op => match op with
    | .bids _ => a
    | .asks ls => lastQtyLevels p a ls) none

/-- Strictly-sorted-keys invariant of a book side (the `BTreeMap` order). -/
def SortedKeys (l : List (F × F)) : Prop :=
  l.Pairwise fun a b => F.keyLtB a.1 b.1 = true

/-!
Shared concrete inputs for witnesses: a minimal crossed pair of books (the
single-level scenario of spec §8) and the multi-level scenario books.
-/

/-- Book holding one bid at 0.150 for quantity 100. -/
def bookBid15 : OrderBook :=
  ⟨[(F.fin ⟨150, 1000⟩, F.fin ⟨100, 1⟩)], [], "S", .okex⟩

/-- Book holding one ask at 0.140 for quantity 100. -/
def bookAsk14 : OrderBook :=
  ⟨[], [(F.fin ⟨140, 1000⟩, F.fin ⟨100, 1⟩)], "S", .deribit⟩

/-- Sell-side book of the multi-level scenario: bids 0.140/100, 0.145/75,
0.150/50 (ascending keys). -/
def bookMultiBids : OrderBook :=
  ⟨[(F.fin ⟨140, 1000⟩, F.fin ⟨100, 1⟩), (F.fin ⟨145, 1000⟩, F.fin ⟨75, 1⟩),
    (F.fin ⟨150, 1000⟩, F.fin ⟨50, 1⟩)], [], "M", .okex⟩

/-- Buy-side book of the multi-level scenario: asks 0.135/30, 0.138/40,
0.142/200 (ascending keys). -/
def bookMultiAsks : OrderBook :=
  ⟨[], [(F.fin ⟨135, 1000⟩, F.fin ⟨30, 1⟩), (F.fin ⟨138, 1000⟩, F.fin ⟨40, 1⟩),
    (F.fin ⟨142, 1000⟩, F.fin ⟨200, 1⟩)], "M", .deribit⟩

/-- C3: on the multi-level scenario — sell-side bids 0.150/50, 0.145/75,
0.140/100 against buy-side asks 0.135/30, 0.138/40, 0.142/200 — detection
returns an opportunity with exactly 4 legs, total volume exactly the decimal
125, and total profit exactly the decimal
`30*0.015 + 20*0.012 + 20*0.007 + 55*0.003`. -/
theorem multi_level_scenario :
    (match detect_arbitrage bookMultiBids bookMultiAsks with
      | .ok (some opp) =>
          decide (opp.trades.length = 4) && D.veq opp.total_volume ⟨125, 1⟩
          && D.veq opp.total_profit (D.add (D.add (D.add
               (D.mul ⟨30, 1⟩ ⟨15, 1000⟩) (D.mul ⟨20, 1⟩ ⟨12, 1000⟩))
               (D.mul ⟨20, 1⟩ ⟨7, 1000⟩)) (D.mul ⟨55, 1⟩ ⟨3, 1000⟩))
      | _ => false) = true := by
  decide

/-- C8: the canonical pair `BTC-USD-240427-56000-C` / `BTC-27APR24-56000-C`
is equivalent; any variant whose parsed strike, expiry or option type differs
on either side is not equivalent (stated generally for parse results that
differ, and concretely for each altered component on each side); and any
symbol with too few dash-separated components produces the structured
`InsufficientComponents` parse error rather than a crash. -/
theorem instrument_equivalence :
    (are_same_instrument "BTC-USD-240427-56000-C".toList "BTC-27APR24-56000-C".toList
       = .ok true) ∧
    (∀ (o d : List Char) (po pd : ParsedInstrument),
       parse_okex_symbol o = .ok po → parse_deribit_symbol d = .ok pd →
       po ≠ pd → are_same_instrument o d = .ok false) ∧
    (are_same_instrument "BTC-USD-240427-56000-C".toList "BTC-27APR24-60000-C".toList
       = .ok false) ∧
    (are_same_instrument "BTC-USD-240427-60000-C".toList "BTC-27APR24-56000-C".toList
       = .ok false) ∧
    (are_same_instrument "BTC-USD-240427-56000-C".toList "BTC-28APR24-56000-C".toList
       = .ok false) ∧
    (are_same_instrument "BTC-USD-240428-56000-C".toList "BTC-27APR24-56000-C".toList
       = .ok false) ∧
    (are_same_instrument "BTC-USD-240427-56000-C".toList "BTC-27APR24-56000-P".toList
       = .ok false) ∧
    (are_same_instrument "BTC-USD-240427-56000-P".toList "BTC-27APR24-56000-C".toList
       = .ok false) ∧
    (∀ (o d : List Char), (splitDash o).length < 5 →
       are_same_instrument o d = .error .insufficientComponents) ∧
    (∀ (o d : List Char), (splitDash d).length < 4 →
       ∃ e, are_same_instrument o d = .error e) := by
  refine ⟨rfl, ?_, rfl, rfl, rfl, rfl, rfl, rfl, ?_, ?_⟩
  · intro o d po pd hpo hpd hne
    unfold are_same_instrument
    rw [hpo, hpd]
    simp [hne]
  · intro o d hlen
    unfold are_same_instrument parse_okex_symbol
    simp [hlen]
  · intro o d hlen
    cases hp : parse_okex_symbol o with
    | error e =>
        refine ⟨e, ?_⟩
        unfold are_same_instrument
        rw [hp]
    | ok po =>
        refine ⟨.insufficientComponents, ?_⟩
        unfold are_same_instrument
        rw [hp]
        unfold parse_deribit_symbol
        simp [hlen]

/-- C8 witness: the general difference law applied to the concrete
altered-strike pair, and the short-symbol error applied concretely. -/
theorem instrument_equivalence_witness :
    are_same_instrument "BTC-USD-240427-56000-C".toList "BTC-27APR24-60000-C".toList
      = .ok false ∧
    are_same_instrument "BTC-USD".toList "BTC-27APR24-56000-C".toList
      = .error .insufficientComponents := by
  constructor
  · exact instrument_equivalence.2.1 _ _
      ⟨"BTC".toList, ⟨2024, 4, 27⟩, 56000, .call⟩
      ⟨"BTC".toList, ⟨2024, 4, 27⟩, 60000, .call⟩ rfl rfl (by decide)
  · exact instrument_equivalence.2.2.2.2.2.2.2.2.1 _ _ (by decide)

/-- Helper: a direction with no crossing yields no opportunity
(`check_direction` lines 183-188). -/
theorem check_direction_of_noCross (sb bb : OrderBook) (be se : Exchange)
    (h : noCrossB sb bb = true) : check_direction sb bb be se = .ok none := by
  unfold noCrossB at h
  unfold check_direction
  cases h1 : sb.best_bid with
  | none => rfl
  | some bid =>
      cases h2 : bb.best_ask with
      | none => rfl
      | some ask =>
          rw [h1, h2] at h
          simp only [] at h
          simp [h]

/-- C10: `update_bids` mutates only the `bids` map, leaving `asks`, `symbol`
and `exchange` unchanged; symmetrically `update_asks` mutates only `asks`. -/
theorem update_frame :
    ∀ (b : OrderBook) (levels : List OrderLevel),
      ((b.update_bids levels).asks = b.asks ∧
       (b.update_bids levels).symbol = b.symbol ∧
       (b.update_bids levels).exchange = b.exchange) ∧
      ((b.update_asks levels).bids = b.bids ∧
       (b.update_asks levels).symbol = b.symbol ∧
       (b.update_asks levels).exchange = b.exchange) :=
  fun _ _ => ⟨⟨rfl, rfl, rfl⟩, ⟨rfl, rfl, rfl⟩⟩

/-- C7: the reconnect delay is `min(attempt, 5) * 5` seconds plus a jitter in
`[0, 5)`; the base term is monotone in the attempt counter and equals 25
seconds from attempt 5 on; the counter is reset to zero exactly by a
successful connect (a failed connect increments it without reset, a
successful connect resets it before the session, and the backoff after a
completed session is therefore computed at counter value `0 + 1`). -/
theorem backoff_policy :
    (∀ n seed, 1 ≤ n →
       reconnect_backoff n seed = min n 5 * 5 + seed % 5 ∧ seed % 5 < 5) ∧
    (∀ n m, n ≤ m → backoff_base n ≤ backoff_base m) ∧
    (∀ n, 5 ≤ n → backoff_base n = 25) ∧
    (∀ a, attempt_after_connect a true = 0) ∧
    (∀ a, attempt_after_connect a false = a) ∧
    (∀ a seed, reconnect_loop_step a .sessionEnded seed =
       (1, some (reconnect_backoff 1 seed))) ∧
    (∀ a seed, reconnect_loop_step a .connectFailed seed =
       (a + 1, some (reconnect_backoff (a + 1) seed))) ∧
    (∀ a seed, reconnect_loop_step a .subscribeSendFailed seed = (0, none)) := by
  refine ⟨fun n seed _ => ⟨rfl, Nat.mod_lt _ (by decide)⟩,
          fun n m h => ?_, fun n h => ?_,
          fun a => rfl, fun a => rfl, fun a seed => rfl, fun a seed => ?_, fun a seed => rfl⟩
  · unfold backoff_base; omega
  · unfold backoff_base; omega
  · unfold reconnect_loop_step attempt_after_connect
    simp

/-- C7 witness: the policy evaluated at concrete counter values and seeds. -/
theorem backoff_policy_witness :
    reconnect_backoff 7 13 = min 7 5 * 5 + 13 % 5 ∧
    backoff_base 2 ≤ backoff_base 4 ∧ backoff_base 9 = 25 ∧
    reconnect_loop_step 6 .sessionEnded 2 = (1, some (reconnect_backoff 1 2)) :=
  ⟨(backoff_policy.1 7 13 (by decide)).1,
   backoff_policy.2.1 2 4 (by decide),
   backoff_policy.2.2.1 9 (by decide),
   backoff_policy.2.2.2.2.2.1 6 2⟩

/-- C4: when neither orientation crosses — the best bid of the sell-side book
is at most the best ask of the buy-side book, or a best level is missing, in
both directions — `detect_arbitrage` returns nothing. -/
theorem detect_arbitrage_of_noCross :
    ∀ (a b : OrderBook), noCrossB a b = true → noCrossB b a = true →
      detect_arbitrage a b = .ok none := by
  intro a b hab hba
  unfold detect_arbitrage
  rw [check_direction_of_noCross a b _ _ hab, check_direction_of_noCross b a _ _ hba]

/-- Unfolding of the strict order against zero: positivity of the numerator. -/
theorem D.ltB_zero_iff {x : D} : D.ltB D.zero x = true ↔ 0 < x.num := by
  simp [D.ltB, D.zero]

/-- Subtraction of a strictly smaller value is positive. -/
theorem D.sub_pos_of_ltB {x y : D} (h : D.ltB x y = true) :
    D.ltB D.zero (D.sub y x) = true := by
  simp only [D.ltB, decide_eq_true_eq] at h
  simp only [D.ltB_zero_iff, D.sub]
  omega

/-- Subtraction after a failed `<=` comparison is positive. -/
theorem D.sub_pos_of_leB_false {s b : D} (h : D.leB s b = false) :
    D.ltB D.zero (D.sub s b) = true := by
  simp only [D.leB, decide_eq_false_iff_not, not_le] at h
  simp only [D.ltB_zero_iff, D.sub]
  omega

/-- Product of positive decimals is positive. -/
theorem D.mul_pos_of_pos {x y : D} (hx : D.ltB D.zero x = true)
    (hy : D.ltB D.zero y = true) : D.ltB D.zero (D.mul x y) = true := by
  rw [D.ltB_zero_iff] at hx hy ⊢
  exact mul_pos hx hy

/-- Selecting either of two positive values stays positive. -/
theorem F.ite_min_pos {x y : F} (hx : F.ltB (F.fin D.zero) x = true)
    (hy : F.ltB (F.fin D.zero) y = true) :
    F.ltB (F.fin D.zero) (if F.ltB x y then x else y) = true := by
  split <;> assumption

/-- Rust `f64::min` of two positive values is positive. -/
theorem F.fminF_pos {a b : F} (ha : F.ltB (F.fin D.zero) a = true)
    (hb : F.ltB (F.fin D.zero) b = true) :
    F.ltB (F.fin D.zero) (F.fminF a b) = true := by
  cases a <;> cases b <;> simp only [F.fminF] <;>
    first
      | exact F.ite_min_pos ha hb
      | exact ha

/-- A `partial_cmp` result `Less` makes the buy-side carry `b - a` either
positive (or, impossibly here, non-finite but still positive in the float
order). -/
theorem F.sub_pos_of_cmp_lt {a b : F} (h : F.partialCmp a b = some .lt)
    (ha : F.ltB (F.fin D.zero) a = true) :
    F.ltB (F.fin D.zero) (F.sub b a) = true := by
  cases a <;> cases b <;>
    simp_all [F.partialCmp, F.sub, F.ltB]
  exact D.sub_pos_of_ltB h

/-- A `partial_cmp` result `Greater` makes the sell-side carry `a - b`
positive. -/
theorem F.sub_pos_of_cmp_gt {a b : F} (h : F.partialCmp a b = some .gt)
    (hb : F.ltB (F.fin D.zero) b = true) :
    F.ltB (F.fin D.zero) (F.sub a b) = true := by
  cases a <;> cases b <;>
    simp_all [F.partialCmp, F.sub, F.ltB]
  exact D.sub_pos_of_ltB h.2

/-- Appending one leg extends the profit sum by that leg's profit. -/
theorem sumProfit_concat (l : List TradeLevel) (t : TradeLevel) :
    sumProfit (l ++ [t]) = D.add (sumProfit l) t.profit := by
  simp [sumProfit, List.foldl_append]

/-- Appending one leg extends the volume sum by that leg's quantity. -/
theorem sumVolume_concat (l : List TradeLevel) (t : TradeLevel) :
    sumVolume (l ++ [t]) = D.add (sumVolume l) t.quantity := by
  simp [sumVolume, List.foldl_append]

/-- Invariant of the matching walk: on normal exit the accumulated totals are
exactly the sums over the accumulated legs. -/
theorem matchWalkF_totals :
    ∀ (fuel : ℕ) (sells buys : List (F × F)) (trades : List TradeLevel)
      (tp tv : D) (rs rb : F) (ts : List TradeLevel) (tp' tv' : D),
      matchWalkF fuel sells buys trades tp tv rs rb = .ok (some (ts, tp', tv')) →
      tp = sumProfit trades → tv = sumVolume trades →
      tp' = sumProfit ts ∧ tv' = sumVolume ts := by
  intro fuel
  induction fuel with
  | zero =>
      intro sells buys trades tp tv rs rb ts tp' tv' h h1 h2
      rcases sells with _ | ⟨⟨sp, sq⟩, sellRest⟩ <;>
        rcases buys with _ | ⟨⟨bp, bq⟩, buyRest⟩ <;>
        simp only [matchWalkF, PanicOr.ok.injEq, Option.some.injEq, Prod.mk.injEq] at h <;>
        obtain ⟨rfl, rfl, rfl⟩ := h <;> exact ⟨h1, h2⟩
  | succ n ih =>
      intro sells buys trades tp tv rs rb ts tp' tv' h h1 h2
      rcases sells with _ | ⟨⟨sp, sq⟩, sellRest⟩
      · simp only [matchWalkF, PanicOr.ok.injEq, Option.some.injEq, Prod.mk.injEq] at h
        obtain ⟨rfl, rfl, rfl⟩ := h; exact ⟨h1, h2⟩
      rcases buys with _ | ⟨⟨bp, bq⟩, buyRest⟩
      · simp only [matchWalkF, PanicOr.ok.injEq, Option.some.injEq, Prod.mk.injEq] at h
        obtain ⟨rfl, rfl, rfl⟩ := h; exact ⟨h1, h2⟩
      simp only [matchWalkF] at h
      split at h
      · simp only [PanicOr.ok.injEq, Option.some.injEq, Prod.mk.injEq] at h
        obtain ⟨rfl, rfl, rfl⟩ := h; exact ⟨h1, h2⟩
      · split at h
        · exact absurd h (by simp)
        · split at h
          · exact absurd h (by simp)
          · split at h
            · exact absurd h (by simp)
            · split at h
              · exact absurd h (by simp)
              · refine ih _ _ _ _ _ _ _ _ _ _ h ?_ ?_
                · rw [sumProfit_concat, h1]
                · rw [sumVolume_concat, h2]
              · refine ih _ _ _ _ _ _ _ _ _ _ h ?_ ?_
                · rw [sumProfit_concat, h1]
                · rw [sumVolume_concat, h2]
              · refine ih _ _ _ _ _ _ _ _ _ _ h ?_ ?_
                · rw [sumProfit_concat, h1]
                · rw [sumVolume_concat, h2]

/-- Helper: totals invariant and profit positivity for any opportunity
returned by `check_direction`. -/
theorem check_direction_totals (sb bb : OrderBook) (be se : Exchange)
    (opp : ArbitrageOpportunity)
    (h : check_direction sb bb be se = .ok (some opp)) :
    opp.total_profit = sumProfit opp.trades ∧
    opp.total_volume = sumVolume opp.trades ∧
    D.ltB D.zero opp.total_profit = true := by
  unfold check_direction at h
  split at h
  · split at h
    · exact absurd h (by simp)
    · split at h
      · exact absurd h (by simp)
      · exact absurd h (by simp)
      · next trades tp tv heq =>
          split at h
          · next hpos =>
              simp only [PanicOr.ok.injEq, Option.some.injEq] at h
              subst h
              unfold matchWalk at heq
              obtain ⟨e1, e2⟩ := matchWalkF_totals _ _ _ _ _ _ _ _ _ _ _ heq rfl rfl
              exact ⟨e1, e2, hpos⟩
          · exact absurd h (by simp)
  · exact absurd h (by simp)

/-- C1: every opportunity returned by `detect_arbitrage` (equivalently
`check_direction`) has `totalProfit` equal to the exact decimal sum of its
legs' profits, `totalVolume` equal to the exact decimal sum of its legs'
quantities, and a strictly positive `totalProfit`; an opportunity with
non-positive total profit is never returned. -/
theorem opportunity_totals :
    (∀ (sb bb : OrderBook) (be se : Exchange) (opp : ArbitrageOpportunity),
       check_direction sb bb be se = .ok (some opp) →
       opp.total_profit = sumProfit opp.trades ∧
       opp.total_volume = sumVolume opp.trades ∧
       D.ltB D.zero opp.total_profit = true) ∧
    (∀ (a b : OrderBook) (opp : ArbitrageOpportunity),
       detect_arbitrage a b = .ok (some opp) →
       opp.total_profit = sumProfit opp.trades ∧
       opp.total_volume = sumVolume opp.trades ∧
       D.ltB D.zero opp.total_profit = true) := by
  refine ⟨check_direction_totals, ?_⟩
  intro a b opp h
  unfold detect_arbitrage at h
  split at h
  · exact absurd h (by simp)
  · next o heq =>
      simp only [PanicOr.ok.injEq, Option.some.injEq] at h
      subst h
      exact check_direction_totals _ _ _ _ _ heq
  · split at h
    · exact absurd h (by simp)
    · next r heq =>
        simp only [PanicOr.ok.injEq] at h
        subst h
        exact check_direction_totals _ _ _ _ _ heq

/-- The opportunity produced by the single-level crossed pair
`bookBid15`/`bookAsk14`. -/
def opp15 : ArbitrageOpportunity :=
  ⟨.deribit, .okex, "S",
   [⟨⟨140, 1000⟩, ⟨150, 1000⟩, ⟨100, 1⟩, ⟨1000000, 1000000⟩⟩],
   ⟨1000000, 1000000⟩, ⟨100, 1⟩⟩

/-- C1 witness: the totals invariant instantiated on the concrete
single-level opportunity. -/
theorem opportunity_totals_witness :
    check_direction bookBid15 bookAsk14 .deribit .okex = .ok (some opp15) ∧
    (opp15.total_profit = sumProfit opp15.trades ∧
     opp15.total_volume = sumVolume opp15.trades ∧
     D.ltB D.zero opp15.total_profit = true) := by
  have h : check_direction bookBid15 bookAsk14 .deribit .okex = .ok (some opp15) := by decide
  exact ⟨h, opportunity_totals.1 bookBid15 bookAsk14 _ _ opp15 h⟩

/-- Conversion of a float to decimal succeeds exactly on finite values. -/
theorem F.toDecimal_eq_some {x : F} {d : D} : F.toDecimal x = some d ↔ x = F.fin d := by
  cases x <;> simp [F.toDecimal]

/-- Invariant of the matching walk: with strictly positive book quantities,
every accumulated leg satisfies `profit = quantity * (sellPrice - buyPrice)`
and has strictly positive profit. -/
theorem matchWalkF_legs :
    ∀ (fuel : ℕ) (sells buys : List (F × F)) (trades : List TradeLevel)
      (tp tv : D) (rs rb : F) (ts : List TradeLevel) (tp' tv' : D),
      matchWalkF fuel sells buys trades tp tv rs rb = .ok (some (ts, tp', tv')) →
      (∀ e ∈ sells, F.ltB (F.fin D.zero) e.2 = true) →
      (∀ e ∈ buys, F.ltB (F.fin D.zero) e.2 = true) →
      (rs = F.fin D.zero ∨ F.ltB (F.fin D.zero) rs = true) →
      (rb = F.fin D.zero ∨ F.ltB (F.fin D.zero) rb = true) →
      (∀ t ∈ trades, t.profit = D.mul t.quantity (D.sub t.sell_price t.buy_price) ∧
         D.ltB D.zero t.profit = true) →
      ∀ t ∈ ts, t.profit = D.mul t.quantity (D.sub t.sell_price t.buy_price) ∧
         D.ltB D.zero t.profit = true := by
  intro fuel
  induction fuel with
  | zero =>
      intro sells buys trades tp tv rs rb ts tp' tv' h hs hb hrs hrb hacc
      rcases sells with _ | ⟨⟨sp, sq⟩, sellRest⟩ <;>
        rcases buys with _ | ⟨⟨bp, bq⟩, buyRest⟩ <;>
        simp only [matchWalkF, PanicOr.ok.injEq, Option.some.injEq, Prod.mk.injEq] at h <;>
        obtain ⟨rfl, rfl, rfl⟩ := h <;> exact hacc
  | succ n ih =>
      intro sells buys trades tp tv rs rb ts tp' tv' h hs hb hrs hrb hacc
      rcases sells with _ | ⟨⟨sp, sq⟩, sellRest⟩
      · simp only [matchWalkF, PanicOr.ok.injEq, Option.some.injEq, Prod.mk.injEq] at h
        obtain ⟨rfl, rfl, rfl⟩ := h; exact hacc
      rcases buys with _ | ⟨⟨bp, bq⟩, buyRest⟩
      · simp only [matchWalkF, PanicOr.ok.injEq, Option.some.injEq, Prod.mk.injEq] at h
        obtain ⟨rfl, rfl, rfl⟩ := h; exact hacc
      have hSpos : F.ltB (F.fin D.zero) (if F.ltB (F.fin D.zero) rs then rs else sq) = true := by
        split
        · next hc => exact hc
        · exact hs (sp, sq) (by simp)
      have hBpos : F.ltB (F.fin D.zero) (if F.ltB (F.fin D.zero) rb then rb else bq) = true := by
        split
        · next hc => exact hc
        · exact hb (bp, bq) (by simp)
      simp only [matchWalkF] at h
      split at h
      · simp only [PanicOr.ok.injEq, Option.some.injEq, Prod.mk.injEq] at h
        obtain ⟨rfl, rfl, rfl⟩ := h; exact hacc
      · next hle =>
          split at h
          · exact absurd h (by simp)
          · next spd hsp =>
              split at h
              · exact absurd h (by simp)
              · next bpd hbp =>
                  split at h
                  · exact absurd h (by simp)
                  · next tqd htq =>
                      rw [F.toDecimal_eq_some] at hsp hbp
                      have hqpos : D.ltB D.zero tqd = true := by
                        have hmin := F.fminF_pos hSpos hBpos
                        rw [F.toDecimal_eq_some.mp htq] at hmin
                        exact hmin
                      have hsub : D.ltB D.zero (D.sub spd bpd) = true := by
                        apply D.sub_pos_of_leB_false
                        rw [hsp, hbp] at hle
                        simpa [F.leB] using hle
                      have hleg : ∀ t ∈ trades ++
                          [TradeLevel.mk bpd spd tqd (D.mul tqd (D.sub spd bpd))],
                          t.profit = D.mul t.quantity (D.sub t.sell_price t.buy_price) ∧
                          D.ltB D.zero t.profit = true := by
                        intro t ht
                        rcases List.mem_append.mp ht with h1 | h1
                        · exact hacc t h1
                        · rcases List.mem_singleton.mp h1 with rfl
                          exact ⟨rfl, D.mul_pos_of_pos hqpos hsub⟩
                      split at h
                      · exact absurd h (by simp)
                      · next hcmp =>
                          exact ih _ _ _ _ _ _ _ _ _ _ h
                            (fun e he => hs e (List.mem_cons_of_mem _ he)) hb
                            (Or.inl rfl)
                            (Or.inr (F.sub_pos_of_cmp_lt hcmp hSpos)) hleg
                      · next hcmp =>
                          exact ih _ _ _ _ _ _ _ _ _ _ h
                            hs (fun e he => hb e (List.mem_cons_of_mem _ he))
                            (Or.inr (F.sub_pos_of_cmp_gt hcmp hBpos))
                            (Or.inl rfl) hleg
                      · exact ih _ _ _ _ _ _ _ _ _ _ h
                          (fun e he => hs e (List.mem_cons_of_mem _ he))
                          (fun e he => hb e (List.mem_cons_of_mem _ he))
                          (Or.inl rfl) (Or.inl rfl) hleg

/-- C5: in every returned opportunity, each leg satisfies
`profit = quantity * (sellPrice - buyPrice)` exactly and has strictly
positive profit, provided every quantity stored in the two relevant book
sides is strictly positive. -/
theorem opportunity_legs :
    ∀ (sb bb : OrderBook) (be se : Exchange) (opp : ArbitrageOpportunity),
      (∀ e ∈ sb.bids, F.ltB (F.fin D.zero) e.2 = true) →
      (∀ e ∈ bb.asks, F.ltB (F.fin D.zero) e.2 = true) →
      check_direction sb bb be se = .ok (some opp) →
      ∀ t ∈ opp.trades,
        t.profit = D.mul t.quantity (D.sub t.sell_price t.buy_price) ∧
        D.ltB D.zero t.profit = true := by
  intro sb bb be se opp hs hb h
  unfold check_direction at h
  split at h
  · split at h
    · exact absurd h (by simp)
    · split at h
      · exact absurd h (by simp)
      · exact absurd h (by simp)
      · next trades tp tv heq =>
          split at h
          · simp only [PanicOr.ok.injEq, Option.some.injEq] at h
            subst h
            unfold matchWalk at heq
            exact matchWalkF_legs _ _ _ _ _ _ _ _ _ _ _ heq
              (fun e he => hs e (List.mem_reverse.mp he)) hb
              (Or.inl rfl) (Or.inl rfl) (by simp)
          · exact absurd h (by simp)
  · exact absurd h (by simp)

/-- C5 witness: the per-leg law on the concrete single-level opportunity. -/
theorem opportunity_legs_witness :
    check_direction bookBid15 bookAsk14 .deribit .okex = .ok (some opp15) ∧
    (∀ t ∈ opp15.trades,
       t.profit = D.mul t.quantity (D.sub t.sell_price t.buy_price) ∧
       D.ltB D.zero t.profit = true) := by
  have h : check_direction bookBid15 bookAsk14 .deribit .okex = .ok (some opp15) := by decide
  exact ⟨h, opportunity_legs bookBid15 bookAsk14 _ _ opp15 (by decide) (by decide) h⟩

/-- A `partial_cmp` of two non-NaN doubles is never `None`. -/
theorem F.partialCmp_ne_none {a b : F} (ha : a ≠ F.nan) (hb : b ≠ F.nan) :
    F.partialCmp a b ≠ none := by
  cases a <;> cases b <;> simp_all [F.partialCmp]

/-- The buy-side carry `b - a` after a `Less` comparison is never NaN. -/
theorem F.sub_ne_nan_of_cmp_lt {a b : F} (h : F.partialCmp a b = some .lt) :
    F.sub b a ≠ F.nan := by
  cases a <;> cases b <;> simp_all [F.partialCmp, F.sub]

/-- The sell-side carry `a - b` after a `Greater` comparison is never NaN. -/
theorem F.sub_ne_nan_of_cmp_gt {a b : F} (h : F.partialCmp a b = some .gt) :
    F.sub a b ≠ F.nan := by
  cases a <;> cases b <;> simp_all [F.partialCmp, F.sub]

/-- Invariant of the matching walk: with no NaN quantity in the remaining
levels nor in the carries, the walk never reaches the `unwrap` panic. -/
theorem matchWalkF_no_panic :
    ∀ (fuel : ℕ) (sells buys : List (F × F)) (trades : List TradeLevel)
      (tp tv : D) (rs rb : F),
      (∀ e ∈ sells, e.2 ≠ F.nan) → (∀ e ∈ buys, e.2 ≠ F.nan) →
      rs ≠ F.nan → rb ≠ F.nan →
      matchWalkF fuel sells buys trades tp tv rs rb ≠ .panic := by
  intro fuel
  induction fuel with
  | zero =>
      intro sells buys trades tp tv rs rb hs hb hrs hrb
      rcases sells with _ | ⟨⟨sp, sq⟩, sellRest⟩ <;>
        rcases buys with _ | ⟨⟨bp, bq⟩, buyRest⟩ <;> simp [matchWalkF]
  | succ n ih =>
      intro sells buys trades tp tv rs rb hs hb hrs hrb
      rcases sells with _ | ⟨⟨sp, sq⟩, sellRest⟩
      · simp [matchWalkF]
      rcases buys with _ | ⟨⟨bp, bq⟩, buyRest⟩
      · simp [matchWalkF]
      have hSnn : (if F.ltB (F.fin D.zero) rs then rs else sq) ≠ F.nan := by
        split
        · exact hrs
        · exact hs (sp, sq) (by simp)
      have hBnn : (if F.ltB (F.fin D.zero) rb then rb else bq) ≠ F.nan := by
        split
        · exact hrb
        · exact hb (bp, bq) (by simp)
      simp only [matchWalkF]
      split
      · simp
      · split
        · simp
        · split
          · simp
          · split
            · simp
            · split
              · next hcmp => exact absurd hcmp (F.partialCmp_ne_none hSnn hBnn)
              · next hcmp =>
                  exact ih _ _ _ _ _ _ _
                    (fun e he => hs e (List.mem_cons_of_mem _ he)) hb
                    (by simp) (F.sub_ne_nan_of_cmp_lt hcmp)
              · next hcmp =>
                  exact ih _ _ _ _ _ _ _
                    hs (fun e he => hb e (List.mem_cons_of_mem _ he))
                    (F.sub_ne_nan_of_cmp_gt hcmp) (by simp)
              · exact ih _ _ _ _ _ _ _
                  (fun e he => hs e (List.mem_cons_of_mem _ he))
                  (fun e he => hb e (List.mem_cons_of_mem _ he))
                  (by simp) (by simp)

/-- C9: if no quantity stored in the sell-side bids or buy-side asks is NaN,
`check_direction` never reaches the `partial_cmp(...).unwrap()` panic: the
quantity-tie comparison always yields an answer and the function is total. -/
theorem check_direction_no_panic :
    ∀ (sb bb : OrderBook) (be se : Exchange),
      (∀ e ∈ sb.bids, e.2 ≠ F.nan) → (∀ e ∈ bb.asks, e.2 ≠ F.nan) →
      check_direction sb bb be se ≠ .panic := by
  intro sb bb be se hs hb
  unfold check_direction
  split
  · split
    · simp
    · split
      · next heq =>
          exact absurd heq (by
            unfold matchWalk
            exact matchWalkF_no_panic _ _ _ _ _ _ _ _
              (fun e he => hs e (List.mem_reverse.mp he)) hb (by simp) (by simp))
      · simp
      · split <;> simp
  · simp

/-- C9 witness: totality on the concrete multi-level books. -/
theorem check_direction_no_panic_witness :
    check_direction bookMultiBids bookMultiAsks .deribit .okex ≠ .panic :=
  check_direction_no_panic bookMultiBids bookMultiAsks .deribit .okex
    (by decide) (by decide)

/-- Helper: a step of the walk whose price or trade-quantity conversion fails
aborts the whole walk with `.ok none`, discarding every accumulated leg. -/
theorem matchWalkF_conv_abort :
    ∀ (fuel : ℕ) (sp sq bp bq : F) (ss bs : List (F × F)) (trades : List TradeLevel)
      (tp tv : D) (rs rb : F),
      F.leB sp bp = false →
      (F.toDecimal sp = none ∨ F.toDecimal bp = none ∨
       F.toDecimal (F.fminF (if F.ltB (F.fin D.zero) rs then rs else sq)
         (if F.ltB (F.fin D.zero) rb then rb else bq)) = none) →
      matchWalkF (fuel + 1) ((sp, sq) :: ss) ((bp, bq) :: bs) trades tp tv rs rb
        = .ok none := by
  intro fuel sp sq bp bq ss bs trades tp tv rs rb hle hconv
  simp only [matchWalkF, hle, Bool.false_eq_true, if_false]
  rcases hconv with h | h | h
  · rw [h]
  · cases hsp : F.toDecimal sp with
    | none => rfl
    | some spd => rw [h]
  · cases hsp : F.toDecimal sp with
    | none => rfl
    | some spd =>
        cases hbp : F.toDecimal bp with
        | none => rfl
        | some bpd => rw [h]

/-- Helper: when the walk of a direction aborts with `.ok none`,
`check_direction` returns `.ok none` for the whole call. -/
theorem check_direction_of_walk_abort :
    ∀ (sb bb : OrderBook) (be se : Exchange),
      matchWalk sb.bids.reverse bb.asks = .ok none →
      check_direction sb bb be se = .ok none := by
  intro sb bb be se h
  unfold check_direction
  split
  · split
    · rfl
    · split
      · next heq => rw [h] at heq; exact absurd heq (by simp)
      · rfl
      · next heq => rw [h] at heq; exact absurd heq (by simp)
  · rfl

/-- C6: a decimal-conversion failure (non-finite price or trade quantity) at
any step of the matching walk makes the walk abort with no result, and an
aborted walk makes `check_direction` — and, when both directions abort,
`detect_arbitrage` — return nothing for the whole call: no partial
opportunity built from already-accumulated legs is ever returned. -/
theorem conversion_failure_aborts :
    (∀ (fuel : ℕ) (sp sq bp bq : F) (ss bs : List (F × F)) (trades : List TradeLevel)
       (tp tv : D) (rs rb : F),
       F.leB sp bp = false →
       (F.toDecimal sp = none ∨ F.toDecimal bp = none ∨
        F.toDecimal (F.fminF (if F.ltB (F.fin D.zero) rs then rs else sq)
          (if F.ltB (F.fin D.zero) rb then rb else bq)) = none) →
       matchWalkF (fuel + 1) ((sp, sq) :: ss) ((bp, bq) :: bs) trades tp tv rs rb
         = .ok none) ∧
    (∀ (sb bb : OrderBook) (be se : Exchange),
       matchWalk sb.bids.reverse bb.asks = .ok none →
       check_direction sb bb be se = .ok none) ∧
    (∀ (a b : OrderBook),
       matchWalk a.bids.reverse b.asks = .ok none →
       matchWalk b.bids.reverse a.asks = .ok none →
       detect_arbitrage a b = .ok none) := by
  refine ⟨matchWalkF_conv_abort, check_direction_of_walk_abort, ?_⟩
  intro a b h1 h2
  unfold detect_arbitrage
  rw [check_direction_of_walk_abort a b b.exchange a.exchange h1,
      check_direction_of_walk_abort b a a.exchange b.exchange h2]

/-- C6 witness: a crossed step whose sell price is `+inf` aborts, with legs
already accumulated in the accumulator, returning `.ok none`. -/
theorem conversion_failure_aborts_witness :
    matchWalkF 3 [(F.inf, F.fin ⟨5, 1⟩)] [(F.fin ⟨1, 1⟩, F.fin ⟨20, 1⟩)]
      [⟨⟨1, 1⟩, ⟨2, 1⟩, ⟨5, 1⟩, ⟨5, 1⟩⟩] ⟨5, 1⟩ ⟨5, 1⟩ (F.fin D.zero) (F.fin ⟨15, 1⟩)
      = .ok none :=
  conversion_failure_aborts.1 2 F.inf (F.fin ⟨5, 1⟩) (F.fin ⟨1, 1⟩) (F.fin ⟨20, 1⟩)
    [] [] [⟨⟨1, 1⟩, ⟨2, 1⟩, ⟨5, 1⟩, ⟨5, 1⟩⟩] ⟨5, 1⟩ ⟨5, 1⟩ (F.fin D.zero) (F.fin ⟨15, 1⟩)
    (by decide) (.inl rfl)

/-- C4 witness: a concrete non-crossed pair (bid 0.140 against ask 0.150). -/
theorem detect_arbitrage_of_noCross_witness :
    detect_arbitrage
      ⟨[(F.fin ⟨140, 1000⟩, F.fin ⟨100, 1⟩)], [(F.fin ⟨150, 1000⟩, F.fin ⟨100, 1⟩)], "W", .okex⟩
      ⟨[(F.fin ⟨139, 1000⟩, F.fin ⟨50, 1⟩)], [(F.fin ⟨151, 1000⟩, F.fin ⟨50, 1⟩)], "W", .deribit⟩
      = .ok none :=
  detect_arbitrage_of_noCross _ _ (by decide) (by decide)

/-!
Value-equality and key-order facts used for the order-book update
characterization (C2).
-/

/-- Value equality of decimals is reflexive. -/
theorem D.veq_refl (x : D) : D.veq x x = true := by simp [D.veq]

/-- Value equality of decimals is symmetric. -/
theorem D.veq_comm (x y : D) : D.veq x y = D.veq y x :=
  decide_eq_decide.mpr eq_comm

/-- Denominators are nonzero as integers. -/
theorem D.den_ne_zero (x : D) : ((x.den : ℕ) : ℤ) ≠ 0 :=
  Int.natCast_ne_zero.mpr x.den.pos.ne'

/-- Denominators are positive as integers. -/
theorem D.den_pos (x : D) : (0 : ℤ) < ((x.den : ℕ) : ℤ) :=
  Int.natCast_pos.mpr x.den.pos

/-- Value equality of decimals is transitive. -/
theorem D.veq_trans {x y z : D} (h1 : D.veq x y = true) (h2 : D.veq y z = true) :
    D.veq x z = true := by
  simp only [D.veq, decide_eq_true_eq] at h1 h2 ⊢
  apply mul_right_cancel₀ (D.den_ne_zero y)
  linear_combination ((z.den : ℕ) : ℤ) * h1 + ((x.den : ℕ) : ℤ) * h2

/-- Strict value order of decimals is transitive. -/
theorem D.ltB_trans {x y z : D} (h1 : D.ltB x y = true) (h2 : D.ltB y z = true) :
    D.ltB x z = true := by
  simp only [D.ltB, decide_eq_true_eq] at h1 h2 ⊢
  have t1 := mul_lt_mul_of_pos_right h1 (D.den_pos z)
  have t2 := mul_lt_mul_of_pos_right h2 (D.den_pos x)
  have h3 : x.num * ((z.den : ℕ) : ℤ) * ((y.den : ℕ) : ℤ) <
      z.num * ((x.den : ℕ) : ℤ) * ((y.den : ℕ) : ℤ) := by nlinarith
  exact lt_of_mul_lt_mul_right h3 (D.den_pos y).le

/-- Value-equal decimals are not strictly ordered. -/
theorem D.ltB_eq_false_of_veq {x y : D} (h : D.veq x y = true) : D.ltB x y = false := by
  simp only [D.veq, decide_eq_true_eq] at h
  simp [D.ltB, h]

/-- Decimal value trichotomy: not smaller and not equal means greater. -/
theorem D.ltB_of_not_lt_not_veq {x y : D} (h1 : D.ltB x y = false)
    (h2 : D.veq x y = false) : D.ltB y x = true := by
  simp only [D.ltB, D.veq, decide_eq_false_iff_not, not_lt] at h1 h2
  simp only [D.ltB, decide_eq_true_eq]
  rcases lt_or_eq_of_le h1 with h | h
  · exact h
  · exact absurd h.symm h2

/-- Strict order respects value equality on the right. -/
theorem D.ltB_congr_right {a b c : D} (h : D.ltB a b = true) (he : D.veq b c = true) :
    D.ltB a c = true := by
  simp only [D.ltB, decide_eq_true_eq] at h ⊢
  simp only [D.veq, decide_eq_true_eq] at he
  have t1 := mul_lt_mul_of_pos_right h (D.den_pos c)
  have h3 : a.num * ((c.den : ℕ) : ℤ) * ((b.den : ℕ) : ℤ) <
      c.num * ((a.den : ℕ) : ℤ) * ((b.den : ℕ) : ℤ) := by nlinarith
  exact lt_of_mul_lt_mul_right h3 (D.den_pos b).le

/-- Key equality of `OrderedFloat` keys is reflexive. -/
theorem F.keyEqB_refl (a : F) : F.keyEqB a a = true := by
  cases a <;> simp [F.keyEqB, D.veq_refl]

/-- Key equality of `OrderedFloat` keys is symmetric. -/
theorem F.keyEqB_comm (a b : F) : F.keyEqB a b = F.keyEqB b a := by
  cases a <;> cases b <;> simp [F.keyEqB, D.veq_comm]

/-- Key equality of `OrderedFloat` keys is transitive. -/
theorem F.keyEqB_trans {a b c : F} (h1 : F.keyEqB a b = true) (h2 : F.keyEqB b c = true) :
    F.keyEqB a c = true := by
  cases a <;> cases b <;> cases c <;> simp_all [F.keyEqB]
  exact D.veq_trans h1 h2

/-- The key order is transitive. -/
theorem F.keyLtB_trans {a b c : F} (h1 : F.keyLtB a b = true) (h2 : F.keyLtB b c = true) :
    F.keyLtB a c = true := by
  cases a <;> cases b <;> cases c <;> simp_all [F.keyLtB]
  exact D.ltB_trans h1 h2

/-- Equal keys are not strictly ordered. -/
theorem F.keyLtB_eq_false_of_keyEqB {a b : F} (h : F.keyEqB a b = true) :
    F.keyLtB a b = false := by
  cases a <;> cases b <;> simp_all [F.keyEqB, F.keyLtB]
  exact D.ltB_eq_false_of_veq h

/-- Key trichotomy: not smaller and not equal means greater. -/
theorem F.keyLtB_of_not_lt_not_eq {a b : F} (h1 : F.keyLtB a b = false)
    (h2 : F.keyEqB a b = false) : F.keyLtB b a = true := by
  cases a <;> cases b <;> simp_all [F.keyEqB, F.keyLtB]
  exact D.ltB_of_not_lt_not_veq h1 h2

/-- The key order respects key equality on the right. -/
theorem F.keyLtB_congr_right {a b c : F} (h : F.keyLtB a b = true)
    (he : F.keyEqB b c = true) : F.keyLtB a c = true := by
  cases a <;> cases b <;> cases c <;> simp_all [F.keyEqB, F.keyLtB]
  exact D.ltB_congr_right h he

/-- Unfolding lemma: sorted keys of a cons cell. -/
theorem sortedKeys_cons {e : F × F} {l : List (F × F)} :
    SortedKeys (e :: l) ↔ (∀ e' ∈ l, F.keyLtB e.1 e'.1 = true) ∧ SortedKeys l := by
  unfold SortedKeys
  exact List.pairwise_cons

/-- The empty side is sorted. -/
theorem sortedKeys_nil : SortedKeys [] := List.Pairwise.nil

/-- Looking up a key absent from every entry yields nothing. -/
theorem lookupKey_eq_none_of_all {m : List (F × F)} {p : F}
    (h : ∀ e ∈ m, F.keyEqB p e.1 = false) : lookupKey p m = none := by
  induction m with
  | nil => rfl
  | cons e rest ih =>
      obtain ⟨p', q'⟩ := e
      simp only [lookupKey]
      rw [h (p', q') (by simp)]
      simp only [Bool.false_eq_true, if_false]
      exact ih fun e he => h e (List.mem_cons_of_mem _ he)

/-- Looking up an inserted key finds the inserted value. -/
theorem lookupKey_insertSorted_self {m : List (F × F)} {p k q : F}
    (hpk : F.keyEqB p k = true) : lookupKey p (insertSorted k q m) = some q := by
  induction m with
  | nil => simp [insertSorted, lookupKey, hpk]
  | cons e rest ih =>
      obtain ⟨p', q'⟩ := e
      simp only [insertSorted]
      split
      · simp [lookupKey, hpk]
      · next hlt =>
          split
          · next heq =>
              have hpp : F.keyEqB p p' = true := F.keyEqB_trans hpk heq
              simp [lookupKey, hpp]
          · next heq =>
              have hppn : F.keyEqB p p' = false := by
                by_contra hc
                rw [Bool.not_eq_false] at hc
                have : F.keyEqB k p' = true :=
                  F.keyEqB_trans (F.keyEqB_comm p k ▸ hpk) hc
                exact heq this
              simp only [lookupKey, hppn, Bool.false_eq_true, if_false]
              exact ih

/-- Inserting a different key does not change a lookup. -/
theorem lookupKey_insertSorted_other {m : List (F × F)} {p k q : F}
    (hpk : F.keyEqB p k = false) : lookupKey p (insertSorted k q m) = lookupKey p m := by
  induction m with
  | nil => simp [insertSorted, lookupKey, hpk]
  | cons e rest ih =>
      obtain ⟨p', q'⟩ := e
      simp only [insertSorted]
      split
      · simp [lookupKey, hpk]
      · next hlt =>
          split
          · next heq =>
              have hppn : F.keyEqB p p' = false := by
                by_contra hc
                rw [Bool.not_eq_false] at hc
                have : F.keyEqB p k = true :=
                  F.keyEqB_trans hc (F.keyEqB_comm k p' ▸ heq)
                simp [this] at hpk
              simp [lookupKey, hppn]
          · simp only [lookupKey]
            split
            · rfl
            · exact ih

/-- Removing a different key does not change a lookup. -/
theorem lookupKey_removeKey_other {m : List (F × F)} {p k : F}
    (hpk : F.keyEqB p k = false) : lookupKey p (removeKey k m) = lookupKey p m := by
  induction m with
  | nil => rfl
  | cons e rest ih =>
      obtain ⟨p', q'⟩ := e
      simp only [removeKey]
      split
      · next heq =>
          have hppn : F.keyEqB p p' = false := by
            by_contra hc
            rw [Bool.not_eq_false] at hc
            have : F.keyEqB p k = true :=
              F.keyEqB_trans hc (F.keyEqB_comm k p' ▸ heq)
            simp [this] at hpk
          simp [lookupKey, hppn]
      · simp only [lookupKey]
        split
        · rfl
        · exact ih

/-- With sorted keys, removing a key makes its lookup fail. -/
theorem lookupKey_removeKey_self {m : List (F × F)} {p k : F}
    (hpk : F.keyEqB p k = true) (hm : SortedKeys m) :
    lookupKey p (removeKey k m) = none := by
  induction m with
  | nil => rfl
  | cons e rest ih =>
      obtain ⟨p', q'⟩ := e
      rw [sortedKeys_cons] at hm
      simp only [removeKey]
      split
      · next heq =>
          apply lookupKey_eq_none_of_all
          intro e he
          by_contra hc
          rw [Bool.not_eq_false] at hc
          have hpe : F.keyEqB p' e.1 = true :=
            F.keyEqB_trans (F.keyEqB_comm k p' ▸ heq)
              (F.keyEqB_trans (F.keyEqB_comm p k ▸ hpk) hc)
          have hfalse := F.keyLtB_eq_false_of_keyEqB hpe
          rw [hm.1 e he] at hfalse
          cases hfalse
      · next heq =>
          have hppn : F.keyEqB p p' = false := by
            by_contra hc
            rw [Bool.not_eq_false] at hc
            have : F.keyEqB k p' = true :=
              F.keyEqB_trans (F.keyEqB_comm p k ▸ hpk) hc
            exact heq this
          simp only [lookupKey, hppn, Bool.false_eq_true, if_false]
          exact ih hm.2

/-- Keys of an insertion result: the new key or an existing key. -/
theorem insertSorted_key_mem {m : List (F × F)} {p q : F} :
    ∀ e ∈ insertSorted p q m, e.1 = p ∨ e.1 ∈ m.map Prod.fst := by
  induction m with
  | nil =>
      intro e he
      simp only [insertSorted] at he
      simp_all
  | cons hd rest ih =>
      obtain ⟨p', q'⟩ := hd
      intro e he
      simp only [insertSorted] at he
      split at he
      · rcases List.mem_cons.mp he with rfl | h
        · exact Or.inl rfl
        · rcases List.mem_cons.mp h with rfl | h
          · simp
          · exact Or.inr (by
              simp only [List.map_cons]
              exact List.mem_cons_of_mem _ (List.mem_map.mpr ⟨e, h, rfl⟩))
      · split at he
        · rcases List.mem_cons.mp he with rfl | h
          · simp
          · exact Or.inr (by
              simp only [List.map_cons]
              exact List.mem_cons_of_mem _ (List.mem_map.mpr ⟨e, h, rfl⟩))
        · rcases List.mem_cons.mp he with rfl | h
          · simp
          · rcases ih e h with h1 | h1
            · exact Or.inl h1
            · exact Or.inr (by
                simp only [List.map_cons]
                exact List.mem_cons_of_mem _ h1)

/-- Insertion preserves the sorted-keys invariant. -/
theorem sortedKeys_insertSorted {m : List (F × F)} {p q : F} (hm : SortedKeys m) :
    SortedKeys (insertSorted p q m) := by
  induction m with
  | nil =>
      simp only [insertSorted]
      unfold SortedKeys
      simp
  | cons hd rest ih =>
      obtain ⟨p', q'⟩ := hd
      rw [sortedKeys_cons] at hm
      simp only [insertSorted]
      split
      · next hlt =>
          rw [sortedKeys_cons]
          constructor
          · intro e he
            rcases List.mem_cons.mp he with rfl | h
            · exact hlt
            · exact F.keyLtB_trans hlt (hm.1 e h)
          · rw [sortedKeys_cons]
            exact hm
      · next hlt =>
          split
          · rw [sortedKeys_cons]
            exact ⟨fun e he => hm.1 e he, hm.2⟩
          · next heq =>
              rw [sortedKeys_cons]
              constructor
              · intro e he
                rcases insertSorted_key_mem e he with h | h
                · rw [h]
                  exact F.keyLtB_of_not_lt_not_eq
                    (Bool.not_eq_true _ ▸ (by simpa using hlt))
                    (Bool.not_eq_true _ ▸ (by simpa using heq))
                · rcases List.mem_map.mp h with ⟨e', he', hee⟩
                  rw [← hee]
                  exact hm.1 e' he'
              · exact ih hm.2

/-- Removal yields a sublist. -/
theorem removeKey_sublist (k : F) (m : List (F × F)) : (removeKey k m).Sublist m := by
  induction m with
  | nil => simp [removeKey]
  | cons hd rest ih =>
      obtain ⟨p', q'⟩ := hd
      simp only [removeKey]
      split
      · exact List.sublist_cons_self _ _
      · exact ih.cons₂ _

/-- Removal preserves the sorted-keys invariant. -/
theorem sortedKeys_removeKey {m : List (F × F)} {k : F} (hm : SortedKeys m) :
    SortedKeys (removeKey k m) :=
  List.Pairwise.sublist (removeKey_sublist k m) hm

/-- Applying one level preserves the sorted-keys invariant. -/
theorem sortedKeys_applyLevel {m : List (F × F)} {l : OrderLevel} (hm : SortedKeys m) :
    SortedKeys (applyLevel m l) := by
  unfold applyLevel
  split
  · exact sortedKeys_removeKey hm
  · exact sortedKeys_insertSorted hm

/-- With sorted keys, a stored entry is what its key's lookup returns. -/
theorem lookupKey_of_mem {m : List (F × F)} {pr q : F}
    (hm : SortedKeys m) (h : (pr, q) ∈ m) : lookupKey pr m = some q := by
  induction m with
  | nil => cases h
  | cons hd rest ih =>
      obtain ⟨p', q'⟩ := hd
      rw [sortedKeys_cons] at hm
      rcases List.mem_cons.mp h with heq | hmem
      · injection heq with h1 h2
        subst h1
        subst h2
        simp [lookupKey, F.keyEqB_refl]
      · have hlt : F.keyLtB p' pr = true := hm.1 (pr, q) hmem
        have hne : F.keyEqB pr p' = false := by
          by_contra hc
          rw [Bool.not_eq_false] at hc
          have hfalse := F.keyLtB_eq_false_of_keyEqB (F.keyEqB_comm pr p' ▸ hc)
          rw [hlt] at hfalse
          cases hfalse
        simp only [lookupKey, hne, Bool.false_eq_true, if_false]
        exact ih hm.2 hmem

/-- Lookup after one level application: the level's own price answers with
its (nonzero) quantity or removes the key; other prices are untouched. -/
theorem lookupKey_applyLevel {m : List (F × F)} {p : F} {l : OrderLevel}
    (hm : SortedKeys m) :
    lookupKey p (applyLevel m l) =
      if F.keyEqB l.price p then (if l.quantity.eqZeroB then none else some l.quantity)
      else lookupKey p m := by
  unfold applyLevel
  by_cases hpe : F.keyEqB l.price p = true
  · have hpe' : F.keyEqB p l.price = true := F.keyEqB_comm l.price p ▸ hpe
    by_cases hz : l.quantity.eqZeroB = true
    · simp only [hz, if_true, hpe]
      exact lookupKey_removeKey_self hpe' hm
    · simp only [Bool.not_eq_true] at hz
      simp only [hz, Bool.false_eq_true, if_false, hpe, if_true]
      exact lookupKey_insertSorted_self hpe'
  · simp only [Bool.not_eq_true] at hpe
    have hpe' : F.keyEqB p l.price = false := F.keyEqB_comm l.price p ▸ hpe
    by_cases hz : l.quantity.eqZeroB = true
    · simp only [hz, if_true, hpe, Bool.false_eq_true, if_false]
      exact lookupKey_removeKey_other hpe'
    · simp only [Bool.not_eq_true] at hz
      simp only [hz, Bool.false_eq_true, if_false, hpe]
      exact lookupKey_insertSorted_other hpe'

/-- Folding levels preserves the sorted-keys invariant. -/
theorem sortedKeys_foldl_levels :
    ∀ (ls : List OrderLevel) (m : List (F × F)), SortedKeys m →
      SortedKeys (ls.foldl applyLevel m) := by
  intro ls
  induction ls with
  | nil => intro m hm; exact hm
  | cons l rest ih => intro m hm; exact ih _ (sortedKeys_applyLevel hm)

/-- One more level at the end of a level list updates the most-recent
quantity at its own price and nothing else. -/
theorem lastQtyLevels_append (p : F) (acc : Option F) (ls : List OrderLevel)
    (l : OrderLevel) :
    lastQtyLevels p acc (ls ++ [l]) =
      if F.keyEqB l.price p then some l.quantity else lastQtyLevels p acc ls := by
  simp [lastQtyLevels, List.foldl_append]

/-- The starting accumulator only matters when the level list never mentions
the price. -/
theorem lastQtyLevels_acc (p : F) (acc : Option F) (ls : List OrderLevel) :
    lastQtyLevels p acc ls =
      (match lastQtyLevels p none ls with
       | none => acc
       | some q => some q) := by
  induction ls using List.reverseRecOn with
  | nil => rfl
  | append_singleton ls l ih =>
      rw [lastQtyLevels_append, lastQtyLevels_append]
      by_cases hc : F.keyEqB l.price p = true
      · simp [hc]
      · simp only [Bool.not_eq_true] at hc
        simp [hc, ih]

/-- Lookup after folding a level list over a sorted side. -/
theorem lookupKey_foldl_levels {p : F} :
    ∀ (ls : List OrderLevel) (m : List (F × F)), SortedKeys m →
      lookupKey p (ls.foldl applyLevel m) =
        (match lastQtyLevels p none ls with
         | none => lookupKey p m
         | some q => if q.eqZeroB then none else some q) := by
  intro ls
  induction ls using List.reverseRecOn with
  | nil => intro m hm; rfl
  | append_singleton ls l ih =>
      intro m hm
      rw [List.foldl_append, List.foldl_cons, List.foldl_nil,
        lookupKey_applyLevel (sortedKeys_foldl_levels ls m hm), lastQtyLevels_append]
      by_cases hc : F.keyEqB l.price p = true
      · simp [hc]
      · simp only [Bool.not_eq_true] at hc
        simp only [hc, Bool.false_eq_true, if_false]
        exact ih m hm

/-- Update sequences preserve sortedness of the bid side. -/
theorem sortedKeys_applyOps_bids :
    ∀ (ops : List BookOp) (b : OrderBook), SortedKeys b.bids →
      SortedKeys (applyOps b ops).bids := by
  intro ops
  induction ops with
  | nil => intro b hb; exact hb
  | cons op rest ih =>
      intro b hb
      show SortedKeys (applyOps (applyOp b op) rest).bids
      apply ih
      cases op with
      | bids ls => exact sortedKeys_foldl_levels ls b.bids hb
      | asks ls => exact hb

/-- Update sequences preserve sortedness of the ask side. -/
theorem sortedKeys_applyOps_asks :
    ∀ (ops : List BookOp) (b : OrderBook), SortedKeys b.asks →
      SortedKeys (applyOps b ops).asks := by
  intro ops
  induction ops with
  | nil => intro b hb; exact hb
  | cons op rest ih =>
      intro b hb
      show SortedKeys (applyOps (applyOp b op) rest).asks
      apply ih
      cases op with
      | bids ls => exact hb
      | asks ls => exact sortedKeys_foldl_levels ls b.asks hb

/-- One more operation at the end of an update sequence. -/
theorem lastQtyBids_append (p : F) (ops : List BookOp) (op : BookOp) :
    lastQtyBids p (ops ++ [op]) =
      (match op with
       | .bids ls => lastQtyLevels p (lastQtyBids p ops) ls
       | .asks _ => lastQtyBids p ops) := by
  simp [lastQtyBids, List.foldl_append]

/-- One more operation at the end of an update sequence (ask side). -/
theorem lastQtyAsks_append (p : F) (ops : List BookOp) (op : BookOp) :
    lastQtyAsks p (ops ++ [op]) =
      (match op with
       | .bids _ => lastQtyAsks p ops
       | .asks ls => lastQtyLevels p (lastQtyAsks p ops) ls) := by
  simp [lastQtyAsks, List.foldl_append]

/-- Bid-side lookup after an arbitrary update sequence, characterized by the
most recent level for the price. -/
theorem lookupKey_applyOps_bids {p : F} :
    ∀ (ops : List BookOp) (b : OrderBook), SortedKeys b.bids →
      lookupKey p (applyOps b ops).bids =
        (match lastQtyBids p ops with
         | none => lookupKey p b.bids
         | some q => if q.eqZeroB then none else some q) := by
  intro ops
  induction ops using List.reverseRecOn with
  | nil => intro b hb; rfl
  | append_singleton ops op ih =>
      intro b hb
      have hfold : applyOps b (ops ++ [op]) = applyOp (applyOps b ops) op := by
        simp [applyOps, List.foldl_append]
      rw [hfold, lastQtyBids_append]
      cases op with
      | asks ls => exact ih b hb
      | bids ls =>
          dsimp only
          rw [show (applyOp (applyOps b ops) (BookOp.bids ls)).bids
              = ls.foldl applyLevel (applyOps b ops).bids from rfl]
          rw [lookupKey_foldl_levels ls _ (sortedKeys_applyOps_bids ops b hb),
            lastQtyLevels_acc p (lastQtyBids p ops) ls, ih b hb]
          cases hq : lastQtyLevels p none ls <;> rfl

/-- Ask-side lookup after an arbitrary update sequence. -/
theorem lookupKey_applyOps_asks {p : F} :
    ∀ (ops : List BookOp) (b : OrderBook), SortedKeys b.asks →
      lookupKey p (applyOps b ops).asks =
        (match lastQtyAsks p ops with
         | none => lookupKey p b.asks
         | some q => if q.eqZeroB then none else some q) := by
  intro ops
  induction ops using List.reverseRecOn with
  | nil => intro b hb; rfl
  | append_singleton ops op ih =>
      intro b hb
      have hfold : applyOps b (ops ++ [op]) = applyOp (applyOps b ops) op := by
        simp [applyOps, List.foldl_append]
      rw [hfold, lastQtyAsks_append]
      cases op with
      | bids ls => exact ih b hb
      | asks ls =>
          dsimp only
          rw [show (applyOp (applyOps b ops) (BookOp.asks ls)).asks
              = ls.foldl applyLevel (applyOps b ops).asks from rfl]
          rw [lookupKey_foldl_levels ls _ (sortedKeys_applyOps_asks ops b hb),
            lastQtyLevels_acc p (lastQtyAsks p ops) ls, ih b hb]
          cases hq : lastQtyLevels p none ls <;> rfl

/-- C2 counterexample: a single bid update with quantity `-1.0` (which is not
strictly positive and not zero) stores the key with that negative quantity,
so presence of a key does not imply the most recent quantity was strictly
positive, and a stored quantity need not be strictly positive. -/
theorem book_positive_quantity_counterexample :
    lookupKey (F.fin ⟨1, 1⟩)
      (applyOps (OrderBook.new "S" .okex)
        [.bids [⟨F.fin ⟨1, 1⟩, F.fin ⟨-1, 1⟩⟩]]).bids
      = some (F.fin ⟨-1, 1⟩) ∧
    F.ltB (F.fin D.zero) (F.fin ⟨-1, 1⟩) = false := by
  decide

/-- C2 (amended): for every update sequence from an empty book, the lookup of
a price key equals the most recent level's quantity for that price when that
quantity is nonzero (`!= 0.0`), and is absent when that quantity is zero or
the price was never updated — so a zero-quantity level always removes the
key, and every stored quantity is nonzero (though not necessarily strictly
positive). -/
theorem book_update_characterization :
    ∀ (sym : String) (ex : Exchange) (ops : List BookOp) (p : F),
      (lookupKey p (applyOps (OrderBook.new sym ex) ops).bids =
         (match lastQtyBids p ops with
          | none => none
          | some q => if q.eqZeroB then none else some q)) ∧
      (lookupKey p (applyOps (OrderBook.new sym ex) ops).asks =
         (match lastQtyAsks p ops with
          | none => none
          | some q => if q.eqZeroB then none else some q)) ∧
      (∀ pr q, (pr, q) ∈ (applyOps (OrderBook.new sym ex) ops).bids →
         q.eqZeroB = false) ∧
      (∀ pr q, (pr, q) ∈ (applyOps (OrderBook.new sym ex) ops).asks →
         q.eqZeroB = false) := by
  intro sym ex ops p
  have hb : SortedKeys (OrderBook.new sym ex).bids := sortedKeys_nil
  have ha : SortedKeys (OrderBook.new sym ex).asks := sortedKeys_nil
  refine ⟨?_, ?_, ?_, ?_⟩
  · rw [lookupKey_applyOps_bids ops _ hb]
    cases hq : lastQtyBids p ops <;> rfl
  · rw [lookupKey_applyOps_asks ops _ ha]
    cases hq : lastQtyAsks p ops <;> rfl
  · intro pr q hmem
    have hl := lookupKey_of_mem (sortedKeys_applyOps_bids ops _ hb) hmem
    rw [lookupKey_applyOps_bids ops _ hb] at hl
    cases hq : lastQtyBids pr ops with
    | none => rw [hq] at hl; exact absurd hl (by simp [lookupKey])
    | some q' =>
        rw [hq] at hl
        dsimp only at hl
        by_cases hz : q'.eqZeroB = true
        · rw [if_pos hz] at hl; cases hl
        · rw [if_neg hz] at hl
          injection hl with hql
          simp only [Bool.not_eq_true] at hz
          rw [← hql]
          exact hz
  · intro pr q hmem
    have hl := lookupKey_of_mem (sortedKeys_applyOps_asks ops _ ha) hmem
    rw [lookupKey_applyOps_asks ops _ ha] at hl
    cases hq : lastQtyAsks pr ops with
    | none => rw [hq] at hl; exact absurd hl (by simp [lookupKey])
    | some q' =>
        rw [hq] at hl
        dsimp only at hl
        by_cases hz : q'.eqZeroB = true
        · rw [if_pos hz] at hl; cases hl
        · rw [if_neg hz] at hl
          injection hl with hql
          simp only [Bool.not_eq_true] at hz
          rw [← hql]
          exact hz

/-- C2 witness: the characterization on a concrete one-update sequence, with
the stored-quantity-nonzero conclusion applied to a concrete entry. -/
theorem book_update_characterization_witness :
    lookupKey (F.fin ⟨1, 1⟩)
      (applyOps (OrderBook.new "W" .okex)
        [.bids [⟨F.fin ⟨1, 1⟩, F.fin ⟨2, 1⟩⟩]]).bids
      = some (F.fin ⟨2, 1⟩) ∧
    (F.fin ⟨2, 1⟩).eqZeroB = false := by
  have h := book_update_characterization "W" .okex
    [.bids [⟨F.fin ⟨1, 1⟩, F.fin ⟨2, 1⟩⟩]] (F.fin ⟨1, 1⟩)
  exact ⟨h.1.trans (by rfl), h.2.2.1 (F.fin ⟨1, 1⟩) (F.fin ⟨2, 1⟩) (by decide)⟩

end Arb
